import Mathlib

/-!
Formal model of the simplified Hopfield-network TSP solver
(class SimplifiedHopfieldTSP in Hopfield.py).

Matrices are modelled as total functions on naturals with rational
entries; the embedded code only ever reads or writes indices below N.
Every call to np.random.randint is modelled by an oracle supplying one
natural number per draw; the drawn value is reduced into the requested
half-open interval, so quantifying over the oracle covers every possible
random outcome.
-/

namespace HopfieldTSP

abbrev Mat := Nat → Nat → ℚ

/-- Write value x at cell (a, b) of a matrix. -/
def setCell (V : Mat) (a b : Nat) (x : ℚ) : Mat :=
  fun i j => if i = a ∧ j = b then x else V i j

/-- np.random.randint lo hi, with the raw oracle draw p: a value in [lo, hi). -/
def randint (lo hi p : Nat) : Nat := lo + p % (hi - lo)

/-- One step of the row pass of init: each row i in [1, N) gets a 1 at one
randomly chosen column in [1, N). -/
def rowStep (N : Nat) (rp : Nat → Nat) (W : Mat) (i : Nat) : Mat :=
  if 1 ≤ i then setCell W i (randint 1 N (rp i)) 1 else W

/-- One step of the column backfill of init: each column j in [1, N) whose
sum is 0 gets a 1 at one randomly chosen row in [1, N). -/
def colStep (N : Nat) (cp : Nat → Nat) (W : Mat) (j : Nat) : Mat :=
  if 1 ≤ j ∧ (∑ i ∈ Finset.range N, W i j) = 0 then
    setCell W (randint 1 N (cp j)) j 1
  else W

/-- The matrix after the seed V[0,0] = 1 and the row pass of init. -/
def initRowPass (N : Nat) (rp : Nat → Nat) : Mat :=
  (List.range N).foldl (rowStep N rp) (setCell (fun _ _ => 0) 0 0 1)

/-- The initial assignment matrix built by init: seed, row pass, backfill. -/
def initV (N : Nat) (rp cp : Nat → Nat) : Mat :=
  (List.range N).foldl (colStep N cp) (initRowPass N rp)

/-- The solver state: size N, distance matrix d, weights A B C D and the
neuron state matrix V. -/
structure Solver where
  N : Nat
  d : Mat
  A : ℚ
  B : ℚ
  C : ℚ
  D : ℚ
  V : Mat

/-- init: the distance matrix is passed as a list of rows, N is its row
count (shape[0]); the constructor performs no validation of any kind. -/
def construct (m : List (List ℚ)) (A B C D : ℚ) (rp cp : Nat → Nat) : Solver :=
  ⟨m.length, fun i j => (m.getD i []).getD j 0, A, B, C, D,
    initV m.length rp cp⟩

/-- Row-constraint term of energy_function. -/
def constraint1 (s : Solver) : ℚ :=
  ∑ i ∈ Finset.range s.N, ((∑ j ∈ Finset.range s.N, s.V i j) - 1) ^ 2

/-- Column-constraint term of energy_function. -/
def constraint2 (s : Solver) : ℚ :=
  ∑ j ∈ Finset.range s.N, ((∑ i ∈ Finset.range s.N, s.V i j) - 1) ^ 2

/-- np.sum(V): the total activation. -/
def totalV (s : Solver) : ℚ :=
  ∑ i ∈ Finset.range s.N, ∑ j ∈ Finset.range s.N, s.V i j

/-- Count-constraint term of energy_function. -/
def constraint3 (s : Solver) : ℚ := (totalV s - (s.N : ℚ)) ^ 2

/-- Start-point term of energy_function: three independent checks, each
adding the constant 1000 to this term. -/
def constraint4 (s : Solver) : ℚ :=
  (if s.V 0 0 ≠ 1 then 1000 else 0) +
    (if 0 < ∑ j ∈ Finset.Ico 1 s.N, s.V 0 j then 1000 else 0) +
    (if 0 < ∑ i ∈ Finset.Ico 1 s.N, s.V i 0 then 1000 else 0)

/-- next_j in the distance term: j + 1, wrapping N - 1 back to 0. -/
def nextStep (N j : Nat) : Nat := if j = N - 1 then 0 else j + 1

/-- Distance term of energy_function. -/
def distance_term (s : Solver) : ℚ :=
  ∑ j ∈ Finset.range s.N, ∑ i ∈ Finset.range s.N, ∑ k ∈ Finset.range s.N,
    s.d i k * s.V i j * s.V k (nextStep s.N j)

/-- The total energy returned as the first component of energy_function. -/
def total_energy (s : Solver) : ℚ :=
  s.A * constraint1 s + s.B * constraint2 s + s.C * constraint3 s +
    1000 * constraint4 s + s.D * distance_term s

/-- prev_j in update_neuron: j - 1, wrapping 0 back to N - 1. -/
def prevStep (N j : Nat) : Nat := if j = 0 then N - 1 else j - 1

/-- The local input computed by update_neuron for cell (i, j). -/
def input_val (s : Solver) (i j : Nat) : ℚ :=
  -s.A * (∑ jj ∈ Finset.range s.N, s.V i jj) + s.A
    - (s.B * (∑ ii ∈ Finset.range s.N, s.V ii j) + s.B)
    - (s.C * totalV s + s.C * (s.N : ℚ))
    - ∑ k ∈ Finset.range s.N,
        (s.D * s.d k i * s.V k (prevStep s.N j) +
          s.D * s.d i k * s.V k ((j + 1) % s.N))

/-- update_neuron, with oracle draws pa and pb for the two randint(0, N)
calls choosing the cell. -/
def update_neuron (s : Solver) (pa pb : Nat) : Solver :=
  ⟨s.N, s.d, s.A, s.B, s.C, s.D,
    setCell s.V (randint 0 s.N pa) (randint 0 s.N pb)
      (if 0 < input_val s (randint 0 s.N pa) (randint 0 s.N pb) then 1 else 0)⟩

/-- The 1-based point ids of the rows active in column j, in row order. -/
def colList (s : Solver) (j : Nat) : List Nat :=
  (List.range s.N).filterMap fun i => if s.V i j = 1 then some (i + 1) else none

/-- The open route read from V column by column (before closing). -/
def route0 (s : Solver) : List Nat := ((List.range s.N).map (colList s)).flatten

/-- route.append(route[0]); on an empty route the indexing raises, which is
modelled as none. -/
def closeRoute : List Nat → Option (List Nat)
  | [] => none
  | a :: t => some ((a :: t) ++ [a])

/-- Total path length of a closed route, summing d over consecutive pairs. -/
def routeDistance (d : Mat) : List Nat → ℚ
  | [] => 0
  | [_] => 0
  | a :: b :: t => d (a - 1) (b - 1) + routeDistance d (b :: t)

/-- The last element of a list, or dflt when the list is empty
(energy_history[-1] for the nonempty lists the loop inspects). -/
def lastD (l : List ℚ) (dflt : ℚ) : ℚ := l.foldl (fun _ x => x) dflt

/-- The training loop of train: fuel is the number of remaining iterations,
iter the 0-based iteration index, hist the energy history so far; picks
supplies the two randint draws used by update_neuron at each iteration. -/
def trainLoop (picks : Nat → Nat × Nat) (thr : ℚ) :
    Nat → Nat → Solver → List ℚ → Solver × List ℚ
  | 0, _, s, hist => (s, hist)
  | fuel + 1, iter, s, hist =>
    if total_energy s < thr then (s, hist ++ [total_energy s])
    else if 10 < iter ∧ |total_energy s - lastD hist 0| < 1 then
      (s, hist ++ [total_energy s])
    else
      trainLoop picks thr fuel (iter + 1)
        (update_neuron s (picks iter).1 (picks iter).2)
        (hist ++ [total_energy s])

/-- The energy history produced by running the training loop. -/
def trainTrace (s : Solver) (picks : Nat → Nat × Nat) (maxIter : Nat)
    (thr : ℚ) : List ℚ :=
  (trainLoop picks thr maxIter 0 s []).2

/-- train: run the loop, then decode the final state; none models the
uncaught IndexError raised by route.append(route[0]) on an empty route. -/
def train (s : Solver) (picks : Nat → Nat × Nat) (maxIter : Nat) (thr : ℚ) :
    Option (List Nat × ℚ × List ℚ) :=
  (closeRoute (route0 (trainLoop picks thr maxIter 0 s []).1)).map
    fun r =>
      (r, routeDistance (trainLoop picks thr maxIter 0 s []).1.d r,
        (trainLoop picks thr maxIter 0 s []).2)

/-- Modelled from the spec: a valid input is a square matrix with
non-negative entries, at least two points, and non-negative weights. -/
def validInput (m : List (List ℚ)) (A B C D : ℚ) : Prop :=
  (∀ row ∈ m, row.length = m.length) ∧
    (∀ row ∈ m, ∀ x ∈ row, 0 ≤ x) ∧
    2 ≤ m.length ∧ 0 ≤ A ∧ 0 ≤ B ∧ 0 ≤ C ∧ 0 ≤ D

/-- Modelled from the spec: the number of violated start-point checks. -/
def violationCount (s : Solver) : Nat :=
  (if s.V 0 0 ≠ 1 then 1 else 0) +
    (if 0 < ∑ j ∈ Finset.Ico 1 s.N, s.V 0 j then 1 else 0) +
    (if 0 < ∑ i ∈ Finset.Ico 1 s.N, s.V i 0 then 1 else 0)

/-- The solver state after k update_neuron steps with the given draws. -/
def stateAt (s : Solver) (picks : Nat → Nat × Nat) : Nat → Solver
  | 0 => s
  | k + 1 => update_neuron (stateAt s picks k) (picks k).1 (picks k).2

/-- The energy of the k-th iterate. -/
def energyAt (s : Solver) (picks : Nat → Nat × Nat) (k : Nat) : ℚ :=
  total_energy (stateAt s picks k)

/-- The loop's stop test at iteration k, phrased on the iterate energies:
either the current energy is below the threshold, or more than 10
iterations have elapsed and the last two recorded energies differ by
less than 1. -/
def stopCond (s : Solver) (picks : Nat → Nat × Nat) (thr : ℚ) (k : Nat) :
    Prop :=
  energyAt s picks k < thr ∨
    (10 < k ∧ |energyAt s picks k - energyAt s picks (k - 1)| < 1)

/-- All entries of a matrix are 0 or 1. -/
def binary01 (W : Mat) : Prop := ∀ i j, W i j = 0 ∨ W i j = 1

/-- Column j has at least one active row below N. -/
def colHas (N : Nat) (W : Mat) (j : Nat) : Prop := ∃ i, i < N ∧ W i j = 1

/-- The constantly-zero oracle. -/
def zf : Nat → Nat := fun _ => 0

/-- A 2-point distance matrix with large off-diagonal distances. -/
def exM : List (List ℚ) := [[0, 100], [100, 0]]

/-- A 2-point distance matrix with small off-diagonal distances. -/
def exSmall : List (List ℚ) := [[0, 1], [1, 0]]

/-- A solver on exM with the default weights. -/
def cexSolver : Solver := construct exM 100 100 100 1 zf zf

/-- A solver on exSmall with the default weights. -/
def wSolver : Solver := construct exSmall 100 100 100 1 zf zf

/-- Draws that always pick cell (1, 1). -/
def picks11 : Nat → Nat × Nat := fun _ => (1, 1)

/-- Draws that always pick cell (0, 0). -/
def picks00 : Nat → Nat × Nat := fun _ => (0, 0)

/-- A 2-point solver whose state is the identity permutation matrix. -/
def idSolver : Solver := ⟨2, fun _ _ => 3, 3, 4, 5, 7, fun i j => if i = j then 1 else 0⟩

/-- A 2-point solver with default weights and all-zero state. -/
def zeroWSolver : Solver := ⟨2, fun _ _ => 0, 100, 100, 100, 1, fun _ _ => 0⟩

attribute [local semireducible] Rat.add Rat.mul Rat.sub

set_option maxRecDepth 100000

lemma setCell_same (V : Mat) (a b : Nat) (x : ℚ) : setCell V a b x a b = x := by
  simp [setCell]

lemma setCell_other (V : Mat) (a b i j : Nat) (x : ℚ) (h : ¬(i = a ∧ j = b)) :
    setCell V a b x i j = V i j := by
  simp only [setCell, if_neg h]

lemma randint_one_le (N p : Nat) : 1 ≤ randint 1 N p := Nat.le_add_right 1 _

lemma randint_lt_of_two_le (N p : Nat) (h : 2 ≤ N) : randint 1 N p < N := by
  have h1 : p % (N - 1) < N - 1 := Nat.mod_lt _ (by omega)
  unfold randint
  omega

lemma randint_zero_lt (N p : Nat) (h : 0 < N) : randint 0 N p < N := by
  have h1 : p % (N - 0) < N - 0 := Nat.mod_lt _ (by omega)
  unfold randint
  omega

lemma foldl_preserve {α β : Type} (P : α → Prop) (f : α → β → α)
    (h : ∀ a b, P a → P (f a b)) :
    ∀ (l : List β) (a : α), P a → P (l.foldl f a) := by
  intro l
  induction l with
  | nil => intro a ha; exact ha
  | cons b t ih => intro a ha; exact ih _ (h a b ha)

lemma binary01_setCell {W : Mat} {a b : Nat} {x : ℚ} (hW : binary01 W)
    (hx : x = 0 ∨ x = 1) : binary01 (setCell W a b x) := by
  intro i j
  by_cases h : i = a ∧ j = b
  · simpa [setCell, h] using hx
  · rw [setCell_other _ _ _ _ _ _ h]; exact hW i j

lemma binary01_rowStep {N : Nat} {rp : Nat → Nat} {W : Mat} (hW : binary01 W)
    (i : Nat) : binary01 (rowStep N rp W i) := by
  unfold rowStep
  split
  · exact binary01_setCell hW (Or.inr rfl)
  · exact hW

lemma binary01_colStep {N : Nat} {cp : Nat → Nat} {W : Mat} (hW : binary01 W)
    (j : Nat) : binary01 (colStep N cp W j) := by
  unfold colStep
  split
  · exact binary01_setCell hW (Or.inr rfl)
  · exact hW

lemma binary01_initV (N : Nat) (rp cp : Nat → Nat) : binary01 (initV N rp cp) := by
  have h0 : binary01 (fun _ _ => (0 : ℚ)) := fun i j => Or.inl rfl
  have h1 : binary01 (initRowPass N rp) :=
    foldl_preserve binary01 (rowStep N rp) (fun a b ha => binary01_rowStep ha b)
      (List.range N) _ (binary01_setCell h0 (Or.inr rfl))
  exact foldl_preserve binary01 (colStep N cp) (fun a b ha => binary01_colStep ha b)
    (List.range N) _ h1

/-- The combined seed invariant: cell (0,0) is 1 and every other cell of
row 0 and of column 0 is 0. -/
def seedInv (W : Mat) : Prop :=
  W 0 0 = 1 ∧ (∀ j, 1 ≤ j → W 0 j = 0) ∧ (∀ i, 1 ≤ i → W i 0 = 0)

lemma seedInv_setCell {W : Mat} {a b : Nat} (hW : seedInv W) (ha : 1 ≤ a)
    (hb : 1 ≤ b) : seedInv (setCell W a b 1) := by
  obtain ⟨h1, h2, h3⟩ := hW
  refine ⟨?_, ?_, ?_⟩
  · rw [setCell_other _ _ _ _ _ _ (by omega)]; exact h1
  · intro j hj; rw [setCell_other _ _ _ _ _ _ (by omega)]; exact h2 j hj
  · intro i hi; rw [setCell_other _ _ _ _ _ _ (by omega)]; exact h3 i hi

lemma seedInv_rowStep {N : Nat} {rp : Nat → Nat} {W : Mat} (hW : seedInv W)
    (i : Nat) : seedInv (rowStep N rp W i) := by
  unfold rowStep
  split
  · exact seedInv_setCell hW (by assumption) (randint_one_le N _)
  · exact hW

lemma seedInv_colStep {N : Nat} {cp : Nat → Nat} {W : Mat} (hW : seedInv W)
    (j : Nat) : seedInv (colStep N cp W j) := by
  unfold colStep
  split
  · rename_i hc
    exact seedInv_setCell hW (randint_one_le N _) hc.1
  · exact hW

lemma seedInv_initV (N : Nat) (rp cp : Nat → Nat) : seedInv (initV N rp cp) := by
  have hbase : seedInv (setCell (fun _ _ => (0 : ℚ)) 0 0 1) := by
    refine ⟨setCell_same _ _ _ _, ?_, ?_⟩
    · intro j hj; rw [setCell_other _ _ _ _ _ _ (by omega)]
    · intro i hi; rw [setCell_other _ _ _ _ _ _ (by omega)]
  have h1 : seedInv (initRowPass N rp) :=
    foldl_preserve seedInv (rowStep N rp) (fun a b ha => seedInv_rowStep ha b)
      (List.range N) _ hbase
  exact foldl_preserve seedInv (colStep N cp) (fun a b ha => seedInv_colStep ha b)
    (List.range N) _ h1

lemma colHas_setCell_one {N : Nat} {W : Mat} {j : Nat} (h : colHas N W j)
    (a b : Nat) : colHas N (setCell W a b 1) j := by
  obtain ⟨i, hi, hV⟩ := h
  refine ⟨i, hi, ?_⟩
  by_cases hc : i = a ∧ j = b
  · obtain ⟨hc1, hc2⟩ := hc
    rw [hc1, hc2]; exact setCell_same _ _ _ _
  · rw [setCell_other _ _ _ _ _ _ hc]; exact hV

lemma colHas_colStep {N : Nat} {cp : Nat → Nat} {W : Mat} {j : Nat}
    (h : colHas N W j) (b : Nat) : colHas N (colStep N cp W b) j := by
  unfold colStep
  split
  · exact colHas_setCell_one h _ _
  · exact h

lemma backfill_cover (N : Nat) (cp : Nat → Nat) :
    ∀ (l : List Nat) (W : Mat), binary01 W → ∀ j ∈ l, 1 ≤ j → j < N →
      colHas N (l.foldl (colStep N cp) W) j := by
  intro l
  induction l with
  | nil => intro W _ j hj; simp at hj
  | cons b t ih =>
    intro W hW j hj h1 hN
    rw [List.foldl_cons]
    rcases List.mem_cons.mp hj with hjb | hjt
    · subst hjb
      have hstep : colHas N (colStep N cp W j) j := by
        unfold colStep
        split
        · exact ⟨randint 1 N (cp j), randint_lt_of_two_le N _ (by omega),
            setCell_same _ _ _ _⟩
        · rename_i hcond
          have hsum : (∑ i ∈ Finset.range N, W i j) ≠ 0 := fun h0 => hcond ⟨h1, h0⟩
          obtain ⟨i, hi, hne⟩ := Finset.exists_ne_zero_of_sum_ne_zero hsum
          exact ⟨i, Finset.mem_range.mp hi, (hW i j).resolve_left hne⟩
      exact foldl_preserve (fun W2 => colHas N W2 j)
        (colStep N cp) (fun a c ha => colHas_colStep ha c) t _ hstep
    · exact ih (colStep N cp W b) (binary01_colStep hW b) j hjt h1 hN

lemma initV_cover (N : Nat) (rp cp : Nat → Nat) :
    ∀ j, j < N → colHas N (initV N rp cp) j := by
  intro j hj
  rcases Nat.eq_zero_or_pos j with h0 | h1
  · rw [h0]
    exact ⟨0, by omega, (seedInv_initV N rp cp).1⟩
  · exact backfill_cover N cp (List.range N) (initRowPass N rp)
      (by
        have h0 : binary01 (fun _ _ => (0 : ℚ)) := fun a b => Or.inl rfl
        exact foldl_preserve binary01 (rowStep N rp)
          (fun a b ha => binary01_rowStep ha b) (List.range N) _
          (binary01_setCell h0 (Or.inr rfl)))
      j (List.mem_range.mpr hj) h1 hj

lemma mem_route0_bounds {s : Solver} {x : Nat} (h : x ∈ route0 s) :
    1 ≤ x ∧ x ≤ s.N := by
  unfold route0 at h
  rw [List.mem_flatten] at h
  obtain ⟨l, hl, hx⟩ := h
  obtain ⟨j, hj, rfl⟩ := List.mem_map.mp hl
  unfold colList at hx
  rw [List.mem_filterMap] at hx
  obtain ⟨i, hi, hfi⟩ := hx
  by_cases hV : s.V i j = 1
  · rw [if_pos hV] at hfi
    have hix : i + 1 = x := Option.some.inj hfi
    have hiN : i < s.N := List.mem_range.mp hi
    omega
  · rw [if_neg hV] at hfi
    cases hfi

lemma one_mem_route0 {s : Solver} (hN : 0 < s.N) (h00 : s.V 0 0 = 1) :
    1 ∈ route0 s := by
  unfold route0
  rw [List.mem_flatten]
  refine ⟨colList s 0, List.mem_map.mpr ⟨0, List.mem_range.mpr hN, rfl⟩, ?_⟩
  unfold colList
  rw [List.mem_filterMap]
  exact ⟨0, List.mem_range.mpr hN, by rw [if_pos h00]⟩

lemma closeRoute_eq_none_iff {r : List Nat} : closeRoute r = none ↔ r = [] := by
  cases r <;> simp [closeRoute]

lemma getLast?_append_singleton (l : List Nat) (a : Nat) :
    (l ++ [a]).getLast? = some a :=
  List.getLast?_concat _

lemma lastD_append_singleton (l : List ℚ) (a dflt : ℚ) :
    lastD (l ++ [a]) dflt = a := by
  unfold lastD
  rw [List.foldl_append]
  rfl

lemma lastD_map_range (f : Nat → ℚ) (n : Nat) (h : 0 < n) :
    lastD ((List.range n).map f) 0 = f (n - 1) := by
  obtain ⟨m, rfl⟩ : ∃ m, n = m + 1 := ⟨n - 1, by omega⟩
  rw [List.range_succ, List.map_append, List.map_cons, List.map_nil,
    lastD_append_singleton]
  simp

lemma update_neuron_N (s : Solver) (pa pb : Nat) :
    (update_neuron s pa pb).N = s.N := rfl

lemma trainLoop_fst_N (picks : Nat → Nat × Nat) (thr : ℚ) :
    ∀ (fuel iter : Nat) (s : Solver) (hist : List ℚ),
      (trainLoop picks thr fuel iter s hist).1.N = s.N := by
  intro fuel
  induction fuel with
  | zero => intro iter s hist; rfl
  | succ f ih =>
    intro iter s hist
    simp only [trainLoop]
    split
    · rfl
    · split
      · rfl
      · exact ih (iter + 1) _ _

lemma trainLoop_spec (s0 : Solver) (picks : Nat → Nat × Nat) (thr : ℚ) :
    ∀ fuel iter : Nat,
      ∃ n, n ≤ fuel ∧
        (trainLoop picks thr fuel iter (stateAt s0 picks iter)
            ((List.range iter).map (energyAt s0 picks))).2
          = (List.range (iter + n)).map (energyAt s0 picks) ∧
        (∀ k, iter ≤ k → k + 1 < iter + n → ¬stopCond s0 picks thr k) ∧
        (n < fuel → 0 < n ∧ stopCond s0 picks thr (iter + n - 1)) := by
  intro fuel
  induction fuel with
  | zero =>
    intro iter
    refine ⟨0, Nat.le_refl 0, rfl, ?_, ?_⟩
    · intro k hk hk2; omega
    · intro h; omega
  | succ f ih =>
    intro iter
    have hhist : (List.range iter).map (energyAt s0 picks) ++
        [total_energy (stateAt s0 picks iter)]
        = (List.range (iter + 1)).map (energyAt s0 picks) := by
      rw [List.range_succ, List.map_append]
      rfl
    by_cases hthr : total_energy (stateAt s0 picks iter) < thr
    · refine ⟨1, by omega, ?_, ?_, ?_⟩
      · simp only [trainLoop]
        rw [if_pos hthr]
        exact hhist
      · intro k hk hk2; omega
      · intro _
        refine ⟨Nat.one_pos, ?_⟩
        have he : iter + 1 - 1 = iter := by omega
        rw [he]
        exact Or.inl hthr
    · have hlast : 10 < iter →
          lastD ((List.range iter).map (energyAt s0 picks)) 0
            = energyAt s0 picks (iter - 1) :=
        fun h10 => lastD_map_range _ _ (by omega)
      by_cases hplat : 10 < iter ∧
          |energyAt s0 picks iter - energyAt s0 picks (iter - 1)| < 1
      · refine ⟨1, by omega, ?_, ?_, ?_⟩
        · simp only [trainLoop]
          rw [if_neg hthr,
            if_pos (⟨hplat.1, by rw [hlast hplat.1]; exact hplat.2⟩ :
              10 < iter ∧ |total_energy (stateAt s0 picks iter) -
                lastD ((List.range iter).map (energyAt s0 picks)) 0| < 1)]
          exact hhist
        · intro k hk hk2; omega
        · intro _
          refine ⟨Nat.one_pos, ?_⟩
          have he : iter + 1 - 1 = iter := by omega
          rw [he]
          exact Or.inr hplat
      · obtain ⟨n, hn, htrace, hmid, hlaststop⟩ := ih (iter + 1)
        have hc2 : ¬(10 < iter ∧ |total_energy (stateAt s0 picks iter) -
            lastD ((List.range iter).map (energyAt s0 picks)) 0| < 1) := by
          intro hcc
          exact hplat ⟨hcc.1, by rw [← hlast hcc.1]; exact hcc.2⟩
        refine ⟨n + 1, by omega, ?_, ?_, ?_⟩
        · simp only [trainLoop]
          rw [if_neg hthr, if_neg hc2, hhist]
          have harr : iter + (n + 1) = (iter + 1) + n := by omega
          rw [harr]
          exact htrace
        · intro k hk hk2
          rcases Nat.eq_or_lt_of_le hk with hke | hkl
          · rw [← hke]
            intro hstop
            rcases hstop with hs1 | hs2
            · exact hthr hs1
            · exact hplat hs2
          · exact hmid k hkl (by omega)
        · intro hlt
          have hnf : n < f := by omega
          obtain ⟨hn0, hstop⟩ := hlaststop hnf
          refine ⟨by omega, ?_⟩
          have he : iter + (n + 1) - 1 = (iter + 1) + n - 1 := by omega
          rw [he]
          exact hstop

lemma binary01_update_neuron {s : Solver} (h : binary01 s.V) (pa pb : Nat) :
    binary01 (update_neuron s pa pb).V := by
  apply binary01_setCell h
  split
  · exact Or.inr rfl
  · exact Or.inl rfl

lemma binary01_stateAt {s : Solver} (h : binary01 s.V) (picks : Nat → Nat × Nat) :
    ∀ k, binary01 (stateAt s picks k).V := by
  intro k
  induction k with
  | zero => exact h
  | succ n ih => exact binary01_update_neuron ih _ _

lemma constraint4_eq_violationCount (s : Solver) :
    constraint4 s = 1000 * (violationCount s : ℚ) := by
  unfold constraint4 violationCount
  split_ifs <;> push_cast <;> ring

lemma nextStep_lt (N j : Nat) (h : j < N) : nextStep N j < N := by
  unfold nextStep
  split <;> omega

/-- C2 (amended): the total energy decomposes as A·row + B·col + C·count +
1000000·(number of violated start checks) + D·distance; each violated start
check adds 1000 to the internal start term, which the total then multiplies
by a further factor 1000. -/
theorem energy_total_formula (s : Solver) :
    total_energy s = s.A * constraint1 s + s.B * constraint2 s +
      s.C * constraint3 s + 1000000 * (violationCount s : ℚ) +
      s.D * distance_term s := by
  unfold total_energy
  rw [constraint4_eq_violationCount]
  ring

/-- C2 counterexample: on the all-zero 2x2 state with weights
A = B = C = 100, D = 1 the code's total energy is 1000800, while the
claimed formula with each violated start check contributing exactly 1000
to the total yields 1800. -/
theorem energy_start_penalty_cex :
    total_energy zeroWSolver = 1000800 ∧
    zeroWSolver.A * constraint1 zeroWSolver + zeroWSolver.B * constraint2 zeroWSolver +
      zeroWSolver.C * constraint3 zeroWSolver + 1000 * (violationCount zeroWSolver : ℚ) +
      zeroWSolver.D * distance_term zeroWSolver = 1800 ∧
    (1000800 : ℚ) ≠ 1800 :=
  ⟨by decide, by decide, by decide⟩

/-- C6: for a state satisfying all four structural constraints exactly, the
row, column, count and start terms are each zero and the total energy is
exactly D times the distance term. -/
theorem feasible_energy (s : Solver)
    (hrow : ∀ i, i < s.N → (∑ j ∈ Finset.range s.N, s.V i j) = 1)
    (hcol : ∀ j, j < s.N → (∑ i ∈ Finset.range s.N, s.V i j) = 1)
    (htot : totalV s = (s.N : ℚ))
    (h00 : s.V 0 0 = 1)
    (hr0 : (∑ j ∈ Finset.Ico 1 s.N, s.V 0 j) = 0)
    (hc0 : (∑ i ∈ Finset.Ico 1 s.N, s.V i 0) = 0) :
    constraint1 s = 0 ∧ constraint2 s = 0 ∧ constraint3 s = 0 ∧
      constraint4 s = 0 ∧ total_energy s = s.D * distance_term s := by
  have h1 : constraint1 s = 0 := by
    unfold constraint1
    apply Finset.sum_eq_zero
    intro i hi
    rw [hrow i (Finset.mem_range.mp hi)]
    ring
  have h2 : constraint2 s = 0 := by
    unfold constraint2
    apply Finset.sum_eq_zero
    intro j hj
    rw [hcol j (Finset.mem_range.mp hj)]
    ring
  have h3 : constraint3 s = 0 := by
    unfold constraint3
    rw [htot]
    ring
  have h4 : constraint4 s = 0 := by
    unfold constraint4
    rw [if_neg (by simp [h00]), if_neg (by rw [hr0]; exact lt_irrefl 0),
      if_neg (by rw [hc0]; exact lt_irrefl 0)]
    ring
  refine ⟨h1, h2, h3, h4, ?_⟩
  unfold total_energy
  rw [h1, h2, h3, h4]
  ring

/-- C6 witness: the identity permutation state on two points satisfies the
constraints and its energy is exactly D times the distance term. -/
theorem feasible_energy_witness :
    constraint1 idSolver = 0 ∧ constraint2 idSolver = 0 ∧
      constraint3 idSolver = 0 ∧ constraint4 idSolver = 0 ∧
      total_energy idSolver = idSolver.D * distance_term idSolver :=
  feasible_energy idSolver (by decide) (by decide) (by decide) (by decide)
    (by decide) (by decide)

/-- C8: each update_neuron call picks the cell given by the two
randint(0, N) draws (always within bounds), writes there 1 exactly when the
computed local input is strictly positive and 0 otherwise, and leaves every
other cell and every other solver field unchanged. -/
theorem update_neuron_single_mutation (s : Solver) (pa pb : Nat)
    (hN : 0 < s.N) :
    randint 0 s.N pa < s.N ∧ randint 0 s.N pb < s.N ∧
    (update_neuron s pa pb).V (randint 0 s.N pa) (randint 0 s.N pb)
      = (if 0 < input_val s (randint 0 s.N pa) (randint 0 s.N pb) then 1 else 0) ∧
    (∀ i j, ¬(i = randint 0 s.N pa ∧ j = randint 0 s.N pb) →
      (update_neuron s pa pb).V i j = s.V i j) ∧
    (update_neuron s pa pb).N = s.N ∧ (update_neuron s pa pb).d = s.d ∧
    (update_neuron s pa pb).A = s.A ∧ (update_neuron s pa pb).B = s.B ∧
    (update_neuron s pa pb).C = s.C ∧ (update_neuron s pa pb).D = s.D := by
  refine ⟨randint_zero_lt s.N pa hN, randint_zero_lt s.N pb hN,
    setCell_same _ _ _ _, ?_, rfl, rfl, rfl, rfl, rfl, rfl⟩
  intro i j hij
  exact setCell_other _ _ _ _ _ _ hij

/-- C8 witness: a concrete update on the two-point solver mutates the drawn
cell (1, 1) by the binarization rule and leaves cell (0, 0) unchanged. -/
theorem update_neuron_single_mutation_witness :
    0 < wSolver.N ∧
    (update_neuron wSolver 3 5).V (randint 0 wSolver.N 3) (randint 0 wSolver.N 5)
      = (if 0 < input_val wSolver (randint 0 wSolver.N 3) (randint 0 wSolver.N 5)
          then 1 else 0) ∧
    (update_neuron wSolver 3 5).V 0 0 = wSolver.V 0 0 :=
  ⟨by decide, (update_neuron_single_mutation wSolver 3 5 (by decide)).2.2.1,
    (update_neuron_single_mutation wSolver 3 5 (by decide)).2.2.2.1 0 0 (by decide)⟩

/-- C9: for a binary state matrix, a non-negative distance matrix and
non-negative weights, the total energy is non-negative. -/
theorem energy_nonneg (s : Solver)
    (hA : 0 ≤ s.A) (hB : 0 ≤ s.B) (hC : 0 ≤ s.C) (hD : 0 ≤ s.D)
    (hd : ∀ i, i < s.N → ∀ k, k < s.N → 0 ≤ s.d i k)
    (hV : ∀ i, i < s.N → ∀ j, j < s.N → s.V i j = 0 ∨ s.V i j = 1) :
    0 ≤ total_energy s := by
  have hV0 : ∀ i, i < s.N → ∀ j, j < s.N → 0 ≤ s.V i j := by
    intro i hi j hj
    rcases hV i hi j hj with h | h <;> simp [h]
  have h1 : 0 ≤ constraint1 s := Finset.sum_nonneg fun i _ => sq_nonneg _
  have h2 : 0 ≤ constraint2 s := Finset.sum_nonneg fun j _ => sq_nonneg _
  have h3 : 0 ≤ constraint3 s := sq_nonneg _
  have h4 : 0 ≤ constraint4 s := by
    unfold constraint4
    split_ifs <;> norm_num
  have h5 : 0 ≤ distance_term s := by
    unfold distance_term
    apply Finset.sum_nonneg
    intro j hj
    apply Finset.sum_nonneg
    intro i hi
    apply Finset.sum_nonneg
    intro k hk
    have hjN := Finset.mem_range.mp hj
    have hiN := Finset.mem_range.mp hi
    have hkN := Finset.mem_range.mp hk
    exact mul_nonneg (mul_nonneg (hd i hiN k hkN) (hV0 i hiN j hjN))
      (hV0 k hkN (nextStep s.N j) (nextStep_lt s.N j hjN))
  unfold total_energy
  exact add_nonneg (add_nonneg (add_nonneg (add_nonneg (mul_nonneg hA h1)
    (mul_nonneg hB h2)) (mul_nonneg hC h3)) (mul_nonneg (by norm_num) h4))
    (mul_nonneg hD h5)

/-- C9 witness: the freshly constructed two-point solver has non-negative
energy. -/
theorem energy_nonneg_witness : 0 ≤ total_energy wSolver :=
  energy_nonneg wSolver (by decide) (by decide) (by decide) (by decide)
    (by decide) (by decide)

/-- C10: every entry of V is 0 or 1 after construction and after every
number of update steps, and the value any update writes at its drawn cell
is itself 0 or 1. -/
theorem binary_state_invariant (m : List (List ℚ)) (A B C D : ℚ)
    (rp cp : Nat → Nat) (picks : Nat → Nat × Nat) (k i j : Nat)
    (s : Solver) (pa pb : Nat) :
    ((stateAt (construct m A B C D rp cp) picks k).V i j = 0 ∨
      (stateAt (construct m A B C D rp cp) picks k).V i j = 1) ∧
    ((update_neuron s pa pb).V (randint 0 s.N pa) (randint 0 s.N pb) = 0 ∨
      (update_neuron s pa pb).V (randint 0 s.N pa) (randint 0 s.N pb) = 1) := by
  constructor
  · exact binary01_stateAt (binary01_initV m.length rp cp) picks k i j
  · have hcell : (update_neuron s pa pb).V (randint 0 s.N pa) (randint 0 s.N pb)
        = (if 0 < input_val s (randint 0 s.N pa) (randint 0 s.N pb)
            then (1 : ℚ) else 0) :=
      setCell_same _ _ _ _
    rw [hcell]
    split
    · exact Or.inr rfl
    · exact Or.inl rfl

/-- C1 counterexample: construction with the invalid input [[-5]] (negative
entry, one single point, negative weight A = -1) does not fail: it returns a
fully initialized solver state, so no InvalidInputError behaviour exists. -/
theorem construct_accepts_invalid_input :
    ¬validInput [[-5]] (-1) 100 100 1 ∧
    (construct [[-5]] (-1) 100 100 1 zf zf).N = 1 ∧
    (construct [[-5]] (-1) 100 100 1 zf zf).V 0 0 = 1 ∧
    (construct [[-5]] (-1) 100 100 1 zf zf).A = -1 := by
  refine ⟨?_, rfl, by decide, rfl⟩
  unfold validInput
  decide

/-- C1 (amended): construction never fails and performs no validation: for
every input matrix with at least one row and arbitrary (even negative)
weights, the complete solver state is created, with N the row count, the
seeded cell V[0][0] = 1, a 0/1 state matrix, and a decodable state. -/
theorem construct_always_creates_state (m : List (List ℚ)) (A B C D : ℚ)
    (rp cp : Nat → Nat) (h : 1 ≤ m.length) :
    (construct m A B C D rp cp).N = m.length ∧
    (construct m A B C D rp cp).V 0 0 = 1 ∧
    (∀ i j, (construct m A B C D rp cp).V i j = 0 ∨
      (construct m A B C D rp cp).V i j = 1) ∧
    ∃ r, closeRoute (route0 (construct m A B C D rp cp)) = some r := by
  have hseed := seedInv_initV m.length rp cp
  refine ⟨rfl, hseed.1, binary01_initV m.length rp cp, ?_⟩
  have h1mem : 1 ∈ route0 (construct m A B C D rp cp) :=
    one_mem_route0 (show 0 < m.length by omega) hseed.1
  cases hdec : route0 (construct m A B C D rp cp) with
  | nil => rw [hdec] at h1mem; cases h1mem
  | cons a t => exact ⟨(a :: t) ++ [a], rfl⟩

/-- C1 witness: the amended theorem applied to the invalid one-point input
with a negative entry and a negative weight. -/
theorem construct_always_creates_state_witness :
    1 ≤ ([[-5]] : List (List ℚ)).length ∧
    (construct [[-5]] (-1) 100 100 1 zf zf).V 0 0 = 1 :=
  ⟨by decide,
    (construct_always_creates_state [[-5]] (-1) 100 100 1 zf zf (by decide)).2.1⟩

/-- C3 (amended): decoding fails (the unhandled empty-route indexing error,
modelled as none) exactly when no cell of the final state matrix is active;
in particular an empty first column alone does not make decoding fail. -/
theorem decode_none_iff_empty_state (s : Solver) :
    closeRoute (route0 s) = none ↔
      ∀ i, i < s.N → ∀ j, j < s.N → s.V i j ≠ 1 := by
  rw [closeRoute_eq_none_iff]
  constructor
  · intro h i hi j hj hV
    have hmem : i + 1 ∈ route0 s := by
      unfold route0
      rw [List.mem_flatten]
      refine ⟨colList s j, List.mem_map.mpr ⟨j, List.mem_range.mpr hj, rfl⟩, ?_⟩
      unfold colList
      rw [List.mem_filterMap]
      exact ⟨i, List.mem_range.mpr hi, by rw [if_pos hV]⟩
    rw [h] at hmem
    cases hmem
  · intro h
    refine List.eq_nil_iff_forall_not_mem.mpr ?_
    intro x hx
    unfold route0 at hx
    rw [List.mem_flatten] at hx
    obtain ⟨l, hl, hxl⟩ := hx
    obtain ⟨j, hj, rfl⟩ := List.mem_map.mp hl
    unfold colList at hxl
    rw [List.mem_filterMap] at hxl
    obtain ⟨i, hi, hfi⟩ := hxl
    by_cases hV : s.V i j = 1
    · exact h i (List.mem_range.mp hi) j (List.mem_range.mp hj) hV
    · rw [if_neg hV] at hfi
      cases hfi

/-- C3 witness: decoding the all-zero two-point state fails with the
empty-route error. -/
theorem decode_none_iff_empty_state_witness :
    closeRoute (route0 zeroWSolver) = none :=
  (decode_none_iff_empty_state zeroWSolver).mpr (by decide)

/-- C3 counterexample: a full run whose final state has an empty first
column (neither cell of column 0 is active) decodes without any error, and
train returns the silently wrong route [2, 2] instead of failing. -/
theorem decode_empty_first_column_cex :
    (stateAt cexSolver picks00 11).V 0 0 ≠ 1 ∧
    (stateAt cexSolver picks00 11).V 1 0 ≠ 1 ∧
    closeRoute (route0 (stateAt cexSolver picks00 11)) = some [2, 2] ∧
    (train cexSolver picks00 20 10).map (fun p => p.1) = some [2, 2] :=
  ⟨by decide, by decide, by decide, by decide⟩

/-- C4 (amended): whenever train returns, the returned route is the
column-major list of active cells closed with a repeat of its first entry:
it has length at least 2, starts and ends with the same 1-based point id,
and every entry lies in [1, N]; length at least N + 1 is not guaranteed. -/
theorem train_route_shape (s : Solver) (picks : Nat → Nat × Nat)
    (maxIter : Nat) (thr : ℚ) (r : List Nat) (td : ℚ) (tr : List ℚ)
    (h : train s picks maxIter thr = some (r, td, tr)) :
    2 ≤ r.length ∧ r.head? = r.getLast? ∧ ∀ x ∈ r, 1 ≤ x ∧ x ≤ s.N := by
  unfold train at h
  rw [Option.map_eq_some'] at h
  obtain ⟨r0, hc, hf⟩ := h
  have hrr : r0 = r := congrArg Prod.fst hf
  rw [hrr] at hc
  cases hdec : route0 (trainLoop picks thr maxIter 0 s []).1 with
  | nil =>
    rw [hdec] at hc
    simp [closeRoute] at hc
  | cons a t =>
    rw [hdec] at hc
    simp only [closeRoute, Option.some.injEq] at hc
    rw [← hc]
    refine ⟨?_, ?_, ?_⟩
    · simp
    · rw [getLast?_append_singleton]
      rfl
    · intro x hx
      have hb : 1 ≤ x ∧ x ≤ (trainLoop picks thr maxIter 0 s []).1.N := by
        rcases List.mem_append.mp hx with hx1 | hx2
        · exact mem_route0_bounds (by rw [hdec]; exact hx1)
        · have hxa : x = a := by simpa using hx2
          refine mem_route0_bounds (x := x) ?_
          rw [hdec, hxa]
          exact List.mem_cons_self a t
      rw [trainLoop_fst_N] at hb
      exact hb

/-- C4 witness: the amended theorem applied to a terminating concrete run
on the two-point example, whose returned route is [1, 2, 1]. -/
theorem train_route_shape_witness :
    2 ≤ ([1, 2, 1] : List Nat).length ∧
    ([1, 2, 1] : List Nat).head? = ([1, 2, 1] : List Nat).getLast? :=
  ⟨(train_route_shape wSolver picks00 1000 10 [1, 2, 1] 2 [2] (by decide)).1,
    (train_route_shape wSolver picks00 1000 10 [1, 2, 1] 2 [2] (by decide)).2.1⟩

/-- C4 counterexample: a full run of train on a validly constructed
two-point solver returns a route of length 2, strictly shorter than
N + 1 = 3. -/
theorem train_route_too_short_cex :
    (train cexSolver picks11 20 10).map (fun p => p.1.length) = some 2 ∧
    cexSolver.N = 2 ∧ ¬(cexSolver.N + 1 ≤ 2) :=
  ⟨by decide, rfl, by decide⟩

/-- C5: on every valid input, right after construction the seed invariant
holds (V[0][0] = 1, the rest of row 0 and of column 0 is 0, every column
has an active row), decoding the untrained state cannot fail, and train
with maxIterations = 0 returns the decoded initial route, its distance,
and an empty energy trace. -/
theorem construct_then_decode_safe (m : List (List ℚ)) (A B C D : ℚ)
    (rp cp : Nat → Nat) (picks : Nat → Nat × Nat) (thr : ℚ)
    (h : validInput m A B C D) :
    (construct m A B C D rp cp).V 0 0 = 1 ∧
    (∀ j, 1 ≤ j → (construct m A B C D rp cp).V 0 j = 0) ∧
    (∀ i, 1 ≤ i → (construct m A B C D rp cp).V i 0 = 0) ∧
    (∀ j, j < m.length → ∃ i, i < m.length ∧
      (construct m A B C D rp cp).V i j = 1) ∧
    ∃ r, closeRoute (route0 (construct m A B C D rp cp)) = some r ∧
      train (construct m A B C D rp cp) picks 0 thr =
        some (r, routeDistance (construct m A B C D rp cp).d r, []) := by
  obtain ⟨hsq, hnn, hN2, _⟩ := h
  have hseed := seedInv_initV m.length rp cp
  refine ⟨hseed.1, hseed.2.1, hseed.2.2, ?_, ?_⟩
  · intro j hj
    exact initV_cover m.length rp cp j hj
  · have h1mem : 1 ∈ route0 (construct m A B C D rp cp) :=
      one_mem_route0 (show 0 < m.length by omega) hseed.1
    cases hdec : route0 (construct m A B C D rp cp) with
    | nil => rw [hdec] at h1mem; cases h1mem
    | cons a t =>
      refine ⟨(a :: t) ++ [a], rfl, ?_⟩
      have htr : train (construct m A B C D rp cp) picks 0 thr
          = (closeRoute (route0 (construct m A B C D rp cp))).map
              (fun r => (r, routeDistance (construct m A B C D rp cp).d r,
                ([] : List ℚ))) := rfl
      rw [htr, hdec]
      rfl

/-- C5 witness: the theorem applied to the valid two-point example input. -/
theorem construct_then_decode_safe_witness :
    validInput exSmall 100 100 100 1 ∧
    (construct exSmall 100 100 100 1 zf zf).V 0 0 = 1 :=
  ⟨by unfold validInput; decide,
    (construct_then_decode_safe exSmall 100 100 100 1 zf zf picks00 10
      (by unfold validInput; decide)).1⟩

/-- C7: the energy trace is exactly the energies of the first L iterates
for some L at most maxIterations: one entry is appended per executed
iteration, before the stop checks and the update of that iteration; no
iteration before the last satisfies a stop condition; and if the loop ended
before exhausting maxIterations then the last recorded iteration satisfies
a stop condition (energy strictly below the threshold, or iteration index
greater than 10 with the last two recorded energies closer than 1); the
trace returned by train is this trace. -/
theorem train_trace_characterization (s : Solver) (picks : Nat → Nat × Nat)
    (thr : ℚ) (maxIter : Nat) :
    ∃ L, L ≤ maxIter ∧
      trainTrace s picks maxIter thr = (List.range L).map (energyAt s picks) ∧
      (∀ k, k + 1 < L → ¬stopCond s picks thr k) ∧
      (L < maxIter → 0 < L ∧ stopCond s picks thr (L - 1)) ∧
      (∀ r td tr, train s picks maxIter thr = some (r, td, tr) →
        tr = trainTrace s picks maxIter thr) := by
  obtain ⟨n, h1, h2, h3, h4⟩ := trainLoop_spec s picks thr maxIter 0
  refine ⟨n, h1, ?_, ?_, ?_, ?_⟩
  · have h2b : trainTrace s picks maxIter thr
        = (List.range (0 + n)).map (energyAt s picks) := h2
    rw [Nat.zero_add] at h2b
    exact h2b
  · intro k hk
    exact h3 k (Nat.zero_le k) (by omega)
  · intro hL
    obtain ⟨hn0, hstop⟩ := h4 hL
    refine ⟨hn0, ?_⟩
    rw [show n - 1 = 0 + n - 1 from by omega]
    exact hstop
  · intro r td tr htr
    unfold train at htr
    rw [Option.map_eq_some'] at htr
    obtain ⟨r0, hc, hf⟩ := htr
    have h22 := congrArg (fun p => p.2.2) hf
    exact h22.symm

end HopfieldTSP
